import Mathlib

/-!
Shallow embedding of `nekoton-abi/src/token_unpacker.rs`: the type-directed
`UnpackAbi` decode rules from the tagged ABI value model (`ton_abi::TokenValue`)
into native Rust target types, together with the contract-output cursor
(`ContractOutputUnpacker` / `UnpackFirst`).

External data types (`ton_abi::TokenValue`, `ton_block::MsgAddress`,
`num_bigint::BigInt/BigUint`, `ton_types::Cell`, `ton_block::Grams`) are not
part of the repository source; they are embedded following the spec's data
model and the way the source destructures them.  Payloads this layer treats as
opaque (cell handles, address bodies, declared element types) are embedded as
`Nat` labels.
-/

set_option autoImplicit false

namespace Nekoton

/-- Embedding of `ton_block::MsgAddress` (external crate): the generic address
union.  The address bodies (`MsgAddrStd` / `MsgAddrVar` payloads) are opaque to
the decoding layer and embedded as `Nat` labels. -/
inductive MsgAddress where
  | addrNone
  | addrExtern (addr : Nat)
  | addrStd (addr : Nat)
  | addrVar (addr : Nat)
  deriving DecidableEq, Repr

/-- Embedding of `ton_block::MsgAddressInt` (external crate): the internal
(resolved) address, standard or variable subtype, same opaque bodies. -/
inductive MsgAddressInt where
  | addrStd (addr : Nat)
  | addrVar (addr : Nat)
  deriving DecidableEq, Repr

/-- Embedding of `ton_abi::TokenValue` (external crate), following the spec's
tagged-value model and the variants the source destructures:
`Bool`, `Int { number, size }`, `Uint { number, size }`, `Address`, `Cell`,
`String`, `Bytes`, `Token` (grams amount), `Array`, `FixedArray`, `Map`,
`Optional`, `Ref`.  Arbitrary-precision payloads (`BigInt`/`BigUint`) are
`Int`/`Nat`; declared element/key/value types are opaque `Nat` labels; the
`Map` payload is the ordered list of key/value pairs (keys convert to
`TokenValue` via `TokenValue::from`, here the identity). -/
inductive TokenValue where
  | bool (b : Bool)
  | int (size : Nat) (number : Int)
  | uint (size : Nat) (number : Nat)
  | address (addr : MsgAddress)
  | cell (c : Nat)
  | string (s : String)
  | bytes (data : List Nat)
  | token (grams : Nat)
  | array (ty : Nat) (elems : List TokenValue)
  | fixedArray (ty : Nat) (elems : List TokenValue)
  | map (keyTy valTy : Nat) (pairs : List (TokenValue × TokenValue))
  | optional (ty : Nat) (inner : Option TokenValue)
  | ref (inner : TokenValue)

/-- `Token`: a field name paired with a tagged value (`ton_abi::Token`). -/
structure Token where
  name : String
  value : TokenValue

/-- The single error kind `UnpackerError::InvalidAbi`. -/
inductive UnpackerError where
  | invalidAbi
  deriving DecidableEq, Repr

/-- `pub type UnpackerResult<T> = Result<T, UnpackerError>`. -/
abbrev UnpackerResult (α : Type _) : Type _ := Except UnpackerError α

/-- `impl UnpackAbi<BigInt> for TokenValue`: only the `Int` variant matches;
the declared `size` tag is dropped, only the payload is returned. -/
def unpackBigInt : TokenValue → UnpackerResult Int
  | .int _ number => .ok number
  | _ => .error .invalidAbi

/-- `impl UnpackAbi<BigUint> for TokenValue`: only the `Uint` variant matches;
the declared `size` tag is dropped, only the payload is returned. -/
def unpackBigUint : TokenValue → UnpackerResult Nat
  | .uint _ number => .ok number
  | _ => .error .invalidAbi

/-- `num_traits::ToPrimitive::to_i{B}` on a `BigInt`: `some n` iff `n` fits in
the signed `B`-bit range `[-2^(B-1), 2^(B-1))`, never wrapping or
saturating. -/
def toSigned (bits : Nat) (n : Int) : Option Int :=
  if -(2 ^ (bits - 1) : Int) ≤ n ∧ n < 2 ^ (bits - 1) then some n else none

/-- `num_traits::ToPrimitive::to_u{B}` on a `BigUint`: `some n` iff
`n < 2^B`. -/
def toUnsigned (bits : Nat) (n : Nat) : Option Nat :=
  if n < 2 ^ bits then some n else none

/-- `impl UnpackAbi<i8/i16/i32/i64/i128> for TokenValue`, one instance per
width: `UnpackAbi::<BigInt>::unpack(self)?.to_iB().ok_or(InvalidAbi)`.
The five source impls differ only in `B`, abstracted here as `bits`. -/
def unpackIntFixed (bits : Nat) (v : TokenValue) : UnpackerResult Int :=
  match unpackBigInt v with
  | .ok n =>
    match toSigned bits n with
    | some m => .ok m
    | none => .error .invalidAbi
  | .error e => .error e

/-- `impl UnpackAbi<u8/u16/u32/u64/u128> for TokenValue`, one instance per
width: `UnpackAbi::<BigUint>::unpack(self)?.to_uB().ok_or(InvalidAbi)`. -/
def unpackUintFixed (bits : Nat) (v : TokenValue) : UnpackerResult Nat :=
  match unpackBigUint v with
  | .ok n =>
    match toUnsigned bits n with
    | some m => .ok m
    | none => .error .invalidAbi
  | .error e => .error e

/-- `num_bigint::BigUint::to_bytes_be`: the big-endian byte representation,
with no leading zero bytes, except that zero is represented as `[0]`.
`Nat.digits 256 n` is the little-endian base-256 digit list without leading
zeros (and `[]` for `0`). -/
def natToBytesBE (n : Nat) : List Nat :=
  if n = 0 then [0] else (Nat.digits 256 n).reverse

/-- The copy loop of `UnpackAbi<ton_types::UInt256>`: starting from a 32-byte
zero buffer, `let len = min(data.len(), 32); let offset = 32 - len;
(0..len).for_each(|i| result[i + offset] = data[i])`. -/
def copyRightAligned (data : List Nat) : List Nat :=
  let len := min data.length 32
  let offset := 32 - len
  (List.range len).foldl (fun result i => result.set (i + offset) (data.getD i 0))
    (List.replicate 32 0)

/-- `impl UnpackAbi<ton_types::UInt256> for TokenValue`: only
`Uint { number, size: 256 }` matches; the payload's big-endian bytes are
copied right-aligned into a 32-byte zero buffer. -/
def unpackUInt256 : TokenValue → UnpackerResult (List Nat)
  | .uint 256 number => .ok (copyRightAligned (natToBytesBE number))
  | _ => .error .invalidAbi

/-- `impl UnpackAbi<bool> for TokenValue`. -/
def unpackBool : TokenValue → UnpackerResult Bool
  | .bool confirmed => .ok confirmed
  | _ => .error .invalidAbi

/-- `impl UnpackAbi<Cell> for TokenValue`. -/
def unpackCell : TokenValue → UnpackerResult Nat
  | .cell c => .ok c
  | _ => .error .invalidAbi

/-- `impl UnpackAbi<MsgAddressInt> for TokenValue`: `Address(AddrStd)` maps to
`MsgAddressInt::AddrStd`, `Address(AddrVar)` to `MsgAddressInt::AddrVar`,
everything else (including the other two `MsgAddress` variants) fails. -/
def unpackMsgAddressInt : TokenValue → UnpackerResult MsgAddressInt
  | .address (.addrStd addr) => .ok (.addrStd addr)
  | .address (.addrVar addr) => .ok (.addrVar addr)
  | _ => .error .invalidAbi

/-- `impl UnpackAbi<MsgAddress> for TokenValue`: any address subtype,
unchanged. -/
def unpackMsgAddress : TokenValue → UnpackerResult MsgAddress
  | .address address => .ok address
  | _ => .error .invalidAbi

/-- `impl UnpackAbi<MsgAddrStd> for TokenValue`: only `Address(AddrStd)`. -/
def unpackMsgAddrStd : TokenValue → UnpackerResult Nat
  | .address (.addrStd addr) => .ok addr
  | _ => .error .invalidAbi

/-- `impl UnpackAbi<String> for TokenValue`. -/
def unpackString : TokenValue → UnpackerResult String
  | .string data => .ok data
  | _ => .error .invalidAbi

/-- `impl UnpackAbi<Vec<u8>> for TokenValue`: only the `Bytes` variant.  This
specific impl is the one Rust selects for the `Vec<u8>` target: the generic
`Vec<T>` impl below requires `T: StandaloneToken`, and by trait coherence `u8`
cannot implement `StandaloneToken` (the two impls would overlap on
`Vec<u8>`). -/
def unpackBytes : TokenValue → UnpackerResult (List Nat)
  | .bytes data => .ok data
  | _ => .error .invalidAbi

/-- `impl UnpackAbi<ton_block::Grams> for TokenValue`: the `Token` (currency
amount) variant. -/
def unpackGrams : TokenValue → UnpackerResult Nat
  | .token grams => .ok grams
  | _ => .error .invalidAbi

/-- The element loop of `impl UnpackAbi<Vec<T>> for TokenValue`:
`for token in tokens { vec.push(token.unpack()?); }`, with the element rule
abstracted as `u`.  The `?` aborts on the first failing element. -/
def unpackVecLoop {α : Type _} (u : TokenValue → UnpackerResult α) :
    List TokenValue → UnpackerResult (List α)
  | [] => .ok []
  | t :: rest =>
    match u t with
    | .ok x =>
      match unpackVecLoop u rest with
      | .ok xs => .ok (x :: xs)
      | .error e => .error e
    | .error e => .error e

/-- `impl UnpackAbi<Vec<T>> for TokenValue` (`T: StandaloneToken`): the
`Array` and `FixedArray` variants decode elementwise in order; anything else
fails. -/
def unpackVec {α : Type _} (u : TokenValue → UnpackerResult α) :
    TokenValue → UnpackerResult (List α)
  | .array _ elems => unpackVecLoop u elems
  | .fixedArray _ elems => unpackVecLoop u elems
  | _ => .error .invalidAbi

/-- The key/value decode of the map pair loop without the insertion step:
decodes every pair of a `Map` payload in input order.  Used to state the
hypothesis that all keys and values decode successfully, and to name the
decoded pair sequence. -/
def decodePairsLoop {κ ν : Type _} (uk : TokenValue → UnpackerResult κ)
    (uv : TokenValue → UnpackerResult ν) :
    List (TokenValue × TokenValue) → UnpackerResult (List (κ × ν))
  | [] => .ok []
  | (key, value) :: rest =>
    match uk key with
    | .ok k =>
      match uv value with
      | .ok v =>
        match decodePairsLoop uk uv rest with
        | .ok ps => .ok ((k, v) :: ps)
        | .error e => .error e
      | .error e => .error e
    | .error e => .error e

/-- Association-list lookup: the value of the first pair whose key equals
`k`.  On the map-content models below (which keep keys unique) this is the
map's content function. -/
def alookup {κ ν : Type _} [DecidableEq κ] (k : κ) : List (κ × ν) → Option ν
  | [] => none
  | (k', v) :: rest => if k = k' then some v else alookup k rest

/-- First-some choice on options (used to state lookup decompositions). -/
def orOpt {ν : Type _} (a b : Option ν) : Option ν :=
  match a with
  | some v => some v
  | none => b

/-- Content model of `std::collections::BTreeMap::insert`: place the new
binding at its ordered position according to the comparison `lt`, replacing
the binding of an equal key. -/
def btreeInsert {κ ν : Type _} [DecidableEq κ] (lt : κ → κ → Bool) (k : κ) (v : ν) :
    List (κ × ν) → List (κ × ν)
  | [] => [(k, v)]
  | (k', v') :: rest =>
    if lt k k' then (k, v) :: (k', v') :: rest
    else if k = k' then (k, v) :: rest
    else (k', v') :: btreeInsert lt k v rest

/-- Content model of `std::collections::HashMap::insert`: replace the binding
of an existing equal key in place, otherwise append the new binding. -/
def hashInsert {κ ν : Type _} [DecidableEq κ] (k : κ) (v : ν) :
    List (κ × ν) → List (κ × ν)
  | [] => [(k, v)]
  | (k', v') :: rest =>
    if k = k' then (k, v) :: rest
    else (k', v') :: hashInsert k v rest

/-- The pair loop shared by the `BTreeMap` and `HashMap` impls:
`for (key, value) in values { let key = TokenValue::from(key).unpack()?;
let value = value.unpack()?; map.insert(key, value); }`, with the map's
insert operation abstracted as `ins`. -/
def unpackMapLoop {κ ν : Type _} (ins : κ → ν → List (κ × ν) → List (κ × ν))
    (uk : TokenValue → UnpackerResult κ) (uv : TokenValue → UnpackerResult ν) :
    List (TokenValue × TokenValue) → List (κ × ν) → UnpackerResult (List (κ × ν))
  | [], m => .ok m
  | (key, value) :: rest, m =>
    match uk key with
    | .ok k =>
      match uv value with
      | .ok v => unpackMapLoop ins uk uv rest (ins k v m)
      | .error e => .error e
    | .error e => .error e

/-- `impl UnpackAbi<BTreeMap<K, V>> for TokenValue` (`K: Ord`): only the `Map`
variant; pairs are decoded and inserted in input order into an empty map.
The `Ord` comparison is abstracted as `lt`. -/
def unpackBTreeMap {κ ν : Type _} [DecidableEq κ] (lt : κ → κ → Bool)
    (uk : TokenValue → UnpackerResult κ) (uv : TokenValue → UnpackerResult ν) :
    TokenValue → UnpackerResult (List (κ × ν))
  | .map _ _ pairs => unpackMapLoop (btreeInsert lt) uk uv pairs []
  | _ => .error .invalidAbi

/-- `impl UnpackAbi<HashMap<K, V, S>> for TokenValue` (`K: Eq + Hash`): only
the `Map` variant; pairs are decoded and inserted in input order into an
empty map. -/
def unpackHashMap {κ ν : Type _} [DecidableEq κ]
    (uk : TokenValue → UnpackerResult κ) (uv : TokenValue → UnpackerResult ν) :
    TokenValue → UnpackerResult (List (κ × ν))
  | .map _ _ pairs => unpackMapLoop hashInsert uk uv pairs []
  | _ => .error .invalidAbi

/-- `impl UnpackAbi<TokenValue> for TokenValue`: the identity rule, always
succeeds. -/
def unpackTokenValue : TokenValue → UnpackerResult TokenValue
  | v => .ok v

/-- `impl UnpackAbi<Option<T>> for TokenValue`: only the `Optional` variant;
`item.map(|item| item.unpack()).transpose()`. -/
def unpackOption {α : Type _} (u : TokenValue → UnpackerResult α) :
    TokenValue → UnpackerResult (Option α)
  | .optional _ (some item) =>
    match u item with
    | .ok x => .ok (some x)
    | .error e => .error e
  | .optional _ none => .ok none
  | _ => .error .invalidAbi

/-- `MaybeRef<T>`.  Modelled from the spec: the dedicated "maybe-referenced"
wrapper type (defined in the repository's `models` module, outside the given
source file), a newtype around an optional decoded value. -/
structure MaybeRef (α : Type _) where
  val : Option α
  deriving DecidableEq, Repr

/-- `impl UnpackAbi<MaybeRef<T>> for TokenValue`: an absent `Optional` yields
`MaybeRef(None)`; a present `Optional` must hold a `Ref`, whose inner value is
decoded with `u`; everything else fails. -/
def unpackMaybeRef {α : Type _} (u : TokenValue → UnpackerResult α) :
    TokenValue → UnpackerResult (MaybeRef α)
  | .optional _ (some item) =>
    match item with
    | .ref inner =>
      match u inner with
      | .ok x => .ok ⟨some x⟩
      | .error e => .error e
    | _ => .error .invalidAbi
  | .optional _ none => .ok ⟨none⟩
  | _ => .error .invalidAbi

/-- `impl UnpackAbi<Box<T>> for TokenValue`: `self.unpack().map(Box::new)`.
`Box` is a pure ownership wrapper, embedded as the identity on the decoded
value. -/
def unpackBox {α : Type _} (u : TokenValue → UnpackerResult α) (v : TokenValue) :
    UnpackerResult α :=
  u v

/-- `impl UnpackAbi<Arc<T>> for TokenValue`: `self.unpack().map(Arc::new)`,
likewise a pure ownership wrapper. -/
def unpackArc {α : Type _} (u : TokenValue → UnpackerResult α) (v : TokenValue) :
    UnpackerResult α :=
  u v

/-- `impl UnpackAbi<T> for Option<Token>`: `None` (exhausted iterator) fails
with `InvalidAbi`; `Some(token)` unpacks `token.value`, the name is
discarded. -/
def unpackOptionToken {α : Type _} (u : TokenValue → UnpackerResult α) :
    Option Token → UnpackerResult α
  | some token => u token.value
  | none => .error .invalidAbi

/-- `ContractOutputUnpacker::unpack_next`: `self.0.next().unpack()`.  The
cursor is the list of remaining tokens; `next()` removes the head (or yields
`None` when exhausted) and the cursor advances regardless of the decode
outcome. -/
def unpackNext {α : Type _} (u : TokenValue → UnpackerResult α) :
    List Token → UnpackerResult α × List Token
  | [] => (unpackOptionToken u none, [])
  | token :: rest => (unpackOptionToken u (some token), rest)

/-- `UnpackFirst::unpack_first` for `Vec<Token>`:
`self.into_unpacker().unpack_next()` — build a cursor over the whole sequence
and perform exactly one `unpack_next`, discarding the advanced cursor. -/
def unpackFirst {α : Type _} (u : TokenValue → UnpackerResult α)
    (tokens : List Token) : UnpackerResult α :=
  (unpackNext u tokens).1

/-- The supported target types `T` of `impl UnpackAbi<T> for TokenValue`, as
a closed syntax: one constructor per (family of) source impl, with the
container impls (`Vec<T>`, `BTreeMap<K, V>`, `HashMap<K, V, S>`, `Option<T>`,
`MaybeRef<T>`, `Box<T>`, `Arc<T>`) recursing on their type parameters. -/
inductive TargetTy where
  | bool
  | int (bits : Nat)
  | uint (bits : Nat)
  | uint256
  | cell
  | addressInt
  | address
  | addrStd
  | string
  | bigInt
  | bigUint
  | bytes
  | grams
  | tokenValue
  | vec (t : TargetTy)
  | btreeMap (kt vt : TargetTy)
  | hashMap (kt vt : TargetTy)
  | option (t : TargetTy)
  | maybeRef (t : TargetTy)
  | box (t : TargetTy)
  | arc (t : TargetTy)

/-- Dynamic result value for the closed dispatcher: one constructor per shape
of native decode result.  Opaque payloads (cells, grams, address bodies) land
in `nat`; `Box`/`Arc` are pure ownership wrappers and add nothing. -/
inductive DynValue where
  | bool (b : Bool)
  | int (n : Int)
  | nat (n : Nat)
  | bytes (data : List Nat)
  | address (a : MsgAddress)
  | addressInt (a : MsgAddressInt)
  | string (s : String)
  | tokenValue (v : TokenValue)
  | list (xs : List DynValue)
  | pairs (ps : List (DynValue × DynValue))
  | option (o : Option DynValue)
  | maybeRef (o : Option DynValue)

mutual

/-- The closed type-directed dispatch `unpack<T>`: one Lean match arm per
source impl of `UnpackAbi<T> for TokenValue`, recursing through container
targets exactly where the source impls recurse (array/fixed-array elements,
mapping keys and values, optional inners, reference inners, and the `Box` /
`Arc` ownership wrappers, which re-dispatch on the same value at the inner
type).  For the two map targets the recursion decodes every key and value in
input pair order; folding the decoded pairs into the map content (`insert`)
is the non-recursive step modelled by `unpackBTreeMap` / `unpackHashMap`. -/
def unpackDyn : TargetTy → TokenValue → UnpackerResult DynValue
  | .bool, v => (unpackBool v).map .bool
  | .int bits, v => (unpackIntFixed bits v).map .int
  | .uint bits, v => (unpackUintFixed bits v).map .nat
  | .uint256, v => (unpackUInt256 v).map .bytes
  | .cell, v => (unpackCell v).map .nat
  | .addressInt, v => (unpackMsgAddressInt v).map .addressInt
  | .address, v => (unpackMsgAddress v).map .address
  | .addrStd, v => (unpackMsgAddrStd v).map .nat
  | .string, v => (unpackString v).map .string
  | .bigInt, v => (unpackBigInt v).map .int
  | .bigUint, v => (unpackBigUint v).map .nat
  | .bytes, v => (unpackBytes v).map .bytes
  | .grams, v => (unpackGrams v).map .nat
  | .tokenValue, v => (unpackTokenValue v).map .tokenValue
  | .vec t, .array _ elems => (unpackDynList t elems).map .list
  | .vec t, .fixedArray _ elems => (unpackDynList t elems).map .list
  | .vec _, _ => .error .invalidAbi
  | .btreeMap kt vt, .map _ _ ps => (unpackDynPairs kt vt ps).map .pairs
  | .btreeMap _ _, _ => .error .invalidAbi
  | .hashMap kt vt, .map _ _ ps => (unpackDynPairs kt vt ps).map .pairs
  | .hashMap _ _, _ => .error .invalidAbi
  | .option t, .optional _ (some item) => (unpackDyn t item).map (fun x => .option (some x))
  | .option _, .optional _ none => .ok (.option none)
  | .option _, _ => .error .invalidAbi
  | .maybeRef t, .optional _ (some (.ref inner)) =>
    (unpackDyn t inner).map (fun x => .maybeRef (some x))
  | .maybeRef _, .optional _ none => .ok (.maybeRef none)
  | .maybeRef _, _ => .error .invalidAbi
  | .box t, v => unpackDyn t v
  | .arc t, v => unpackDyn t v
termination_by t v => (sizeOf v, sizeOf t)

/-- Element recursion of the closed dispatcher (the `Vec<T>` impl's loop). -/
def unpackDynList : TargetTy → List TokenValue → UnpackerResult (List DynValue)
  | _, [] => .ok []
  | t, e :: rest =>
    match unpackDyn t e with
    | .ok x =>
      match unpackDynList t rest with
      | .ok xs => .ok (x :: xs)
      | .error err => .error err
    | .error err => .error err
termination_by t l => (sizeOf l, sizeOf t)

/-- Key/value recursion of the closed dispatcher (the map impls' loop). -/
def unpackDynPairs : TargetTy → TargetTy → List (TokenValue × TokenValue) →
    UnpackerResult (List (DynValue × DynValue))
  | _, _, [] => .ok []
  | kt, vt, (key, value) :: rest =>
    match unpackDyn kt key with
    | .ok k =>
      match unpackDyn vt value with
      | .ok v =>
        match unpackDynPairs kt vt rest with
        | .ok ps => .ok ((k, v) :: ps)
        | .error err => .error err
      | .error err => .error err
    | .error err => .error err
termination_by kt vt ps => (sizeOf ps, sizeOf kt + sizeOf vt)

end

/-! Theorems -/

theorem unpackIntFixed_ok_iff (bits : Nat) (v : TokenValue) (r : Int) :
    unpackIntFixed bits v = .ok r ↔
      ∃ size n, v = .int size n ∧ -(2 ^ (bits - 1) : Int) ≤ n ∧ n < 2 ^ (bits - 1) ∧ r = n := by
  cases v
  case int size n =>
    by_cases h : -(2 ^ (bits - 1) : Int) ≤ n ∧ n < 2 ^ (bits - 1)
    · simp only [unpackIntFixed, unpackBigInt, toSigned, if_pos h, Except.ok.injEq]
      constructor
      · rintro rfl
        exact ⟨size, n, rfl, h.1, h.2, rfl⟩
      · rintro ⟨s, m, hv, _, _, rfl⟩
        injection hv with hs hn
    · simp only [unpackIntFixed, unpackBigInt, toSigned, if_neg h, reduceCtorEq, false_iff]
      rintro ⟨s, m, hv, hl, hr, rfl⟩
      injection hv with hs hn
      subst hn
      exact h ⟨hl, hr⟩
  all_goals simp [unpackIntFixed, unpackBigInt]

theorem unpackUintFixed_ok_iff (bits : Nat) (v : TokenValue) (r : Nat) :
    unpackUintFixed bits v = .ok r ↔ ∃ size n, v = .uint size n ∧ n < 2 ^ bits ∧ r = n := by
  cases v
  case uint size n =>
    by_cases h : n < 2 ^ bits
    · simp only [unpackUintFixed, unpackBigUint, toUnsigned, if_pos h, Except.ok.injEq]
      constructor
      · rintro rfl
        exact ⟨size, n, rfl, h, rfl⟩
      · rintro ⟨s, m, hv, _, rfl⟩
        injection hv with hs hn
    · simp only [unpackUintFixed, unpackBigUint, toUnsigned, if_neg h, reduceCtorEq, false_iff]
      rintro ⟨s, m, hv, hl, rfl⟩
      injection hv with hs hn
      subst hn
      exact h hl
  all_goals simp [unpackUintFixed, unpackBigUint]

/-- Claim C1: for every fixed-width integer target of width `bits` (the source
has one impl each for 8/16/32/64/128, signed and unsigned), unpack succeeds
iff the value is the matching-signedness integer variant and the
arbitrary-precision payload fits in `bits` bits for that signedness; on
success the result is the payload itself, and the only other outcome is
`InvalidAbi` — no wraparound, no saturation.  The spec's examples for payload
300 at widths 8 and 16 are included. -/
theorem narrowing_exact_fit :
    (∀ (bits : Nat) (v : TokenValue) (r : Int),
        unpackIntFixed bits v = .ok r ↔
          ∃ size n, v = .int size n ∧ -(2 ^ (bits - 1) : Int) ≤ n ∧ n < 2 ^ (bits - 1) ∧ r = n) ∧
    (∀ (bits : Nat) (v : TokenValue) (r : Nat),
        unpackUintFixed bits v = .ok r ↔
          ∃ size n, v = .uint size n ∧ n < 2 ^ bits ∧ r = n) ∧
    (∀ (bits size : Nat) (n : Int),
        unpackIntFixed bits (.int size n) = .ok n ∨
          unpackIntFixed bits (.int size n) = .error .invalidAbi) ∧
    (∀ (bits size n : Nat),
        unpackUintFixed bits (.uint size n) = .ok n ∨
          unpackUintFixed bits (.uint size n) = .error .invalidAbi) ∧
    unpackIntFixed 8 (.int 16 300) = .error .invalidAbi ∧
    unpackIntFixed 16 (.int 16 300) = .ok 300 ∧
    unpackUintFixed 8 (.uint 16 300) = .error .invalidAbi ∧
    unpackUintFixed 16 (.uint 16 300) = .ok 300 := by
  refine ⟨unpackIntFixed_ok_iff, unpackUintFixed_ok_iff, ?_, ?_, ?_, ?_, ?_, ?_⟩
  · intro bits size n
    by_cases h : -(2 ^ (bits - 1) : Int) ≤ n ∧ n < 2 ^ (bits - 1)
    · exact Or.inl (by simp [unpackIntFixed, unpackBigInt, toSigned, if_pos h])
    · exact Or.inr (by simp [unpackIntFixed, unpackBigInt, toSigned, if_neg h])
  · intro bits size n
    by_cases h : n < 2 ^ bits
    · exact Or.inl (by simp [unpackUintFixed, unpackBigUint, toUnsigned, if_pos h])
    · exact Or.inr (by simp [unpackUintFixed, unpackBigUint, toUnsigned, if_neg h])
  · norm_num [unpackIntFixed, unpackBigInt, toSigned]
  · norm_num [unpackIntFixed, unpackBigInt, toSigned]
  · norm_num [unpackUintFixed, unpackBigUint, toUnsigned]
  · norm_num [unpackUintFixed, unpackBigUint, toUnsigned]

/-- Claim C9: fixed-width narrowing inspects only the arbitrary-precision
payload, never the value's declared bit-width tag — the outcome is identical
under any two size tags, and in particular a `SignedInteger` tagged width 8
holding 300 still unpacks as a 16-bit target. -/
theorem narrowing_ignores_size_tag :
    (∀ (bits size size' : Nat) (n : Int),
        unpackIntFixed bits (.int size n) = unpackIntFixed bits (.int size' n)) ∧
    (∀ (bits size size' n : Nat),
        unpackUintFixed bits (.uint size n) = unpackUintFixed bits (.uint size' n)) ∧
    unpackIntFixed 16 (.int 8 300) = .ok 300 := by
  refine ⟨fun bits size size' n => rfl, fun bits size size' n => rfl, ?_⟩
  simp [unpackIntFixed, unpackBigInt, toSigned]

/-- Claim C3: unpacking a well-formed `Address` value (standard or variable
subtype) to the internal resolved address target never fails and is a 1:1
relabeling of the subtype with the payload unchanged; the strict standard-only
target accepts exactly the standard subtype. -/
theorem address_internal_relabeling :
    (∀ a, unpackMsgAddressInt (.address (.addrStd a)) = .ok (.addrStd a)) ∧
    (∀ a, unpackMsgAddressInt (.address (.addrVar a)) = .ok (.addrVar a)) ∧
    (∀ a, unpackMsgAddrStd (.address (.addrStd a)) = .ok a) ∧
    (∀ a, unpackMsgAddrStd (.address (.addrVar a)) = .error .invalidAbi) :=
  ⟨fun _ => rfl, fun _ => rfl, fun _ => rfl, fun _ => rfl⟩

/-- Claim C7: `unpack_next` on an exhausted cursor fails with `InvalidAbi`;
otherwise it removes the first remaining token, ignores its name, returns the
result of the element rule on its value, and advances the cursor regardless of
the outcome; over a 2-token sequence a third `unpack_next` fails; and
`unpack_first` equals building a cursor over the whole sequence and doing
exactly one `unpack_next`. -/
theorem sequence_unpacker_cursor :
    (∀ (α : Type) (u : TokenValue → UnpackerResult α),
        unpackNext u ([] : List Token) = (.error .invalidAbi, [])) ∧
    (∀ (α : Type) (u : TokenValue → UnpackerResult α) (t : Token) (rest : List Token),
        unpackNext u (t :: rest) = (u t.value, rest)) ∧
    (∀ (α : Type) (u : TokenValue → UnpackerResult α) (tokens : List Token),
        unpackFirst u tokens = (unpackNext u tokens).1) ∧
    (∀ (α : Type) (u : TokenValue → UnpackerResult α) (t₁ t₂ : Token),
        (unpackNext u [t₁, t₂]).2 = [t₂] ∧
        (unpackNext u [t₂]).2 = ([] : List Token) ∧
        (unpackNext u ((unpackNext u ((unpackNext u [t₁, t₂]).2)).2)).1 =
          .error .invalidAbi) :=
  ⟨fun _ _ => rfl, fun _ _ _ _ => rfl, fun _ _ _ => rfl,
    fun _ _ _ _ => ⟨rfl, rfl, rfl⟩⟩

/-- Claim C10: the native byte-sequence target (`Vec<u8>`) accepts exactly the
`Bytes` variant, returning its bytes unchanged; the generic homogeneous
sequence rule does not apply to it (trait coherence keeps `u8` out of
`StandaloneToken`), so `Array`/`FixedArray` values — even of 8-bit unsigned
elements — fail with `InvalidAbi`. -/
theorem bytes_target_only_raw_bytes :
    (∀ (v : TokenValue) (r : List Nat), unpackBytes v = .ok r ↔ v = .bytes r) ∧
    (∀ ty elems, unpackBytes (.array ty elems) = .error .invalidAbi) ∧
    (∀ ty elems, unpackBytes (.fixedArray ty elems) = .error .invalidAbi) ∧
    unpackBytes (.array 0 [.uint 8 1, .uint 8 2]) = .error .invalidAbi := by
  refine ⟨?_, fun ty elems => rfl, fun ty elems => rfl, rfl⟩
  intro v r
  cases v <;> simp [unpackBytes]

/-- Claim C8: the closed type-directed dispatch is a total terminating
function — the recursion through containers bottoms out (its Lean definition
is accepted by well-founded recursion on the pair of value-tree size and
target-type size) and for every supported target type and every tagged value
it returns either a success or `InvalidAbi`. -/
theorem unpack_total_ok_or_invalid_abi :
    ∀ (t : TargetTy) (v : TokenValue),
      (∃ r, unpackDyn t v = .ok r) ∨ unpackDyn t v = .error .invalidAbi := by
  intro t v
  rcases h : unpackDyn t v with e | r
  · cases e
    exact Or.inr rfl
  · exact Or.inl ⟨r, rfl⟩

theorem unpackVecLoop_ok_iff {α : Type _} (u : TokenValue → UnpackerResult α) :
    ∀ (elems : List TokenValue) (l : List α),
      unpackVecLoop u elems = .ok l ↔ List.Forall₂ (fun e a => u e = .ok a) elems l := by
  intro elems
  induction elems with
  | nil =>
    intro l
    simp [unpackVecLoop, List.forall₂_nil_left_iff, eq_comm]
  | cons t rest ih =>
    intro l
    simp only [unpackVecLoop]
    cases h : u t with
    | error err =>
      simp only [reduceCtorEq, false_iff]
      intro hf
      cases hf with
      | cons hx _ =>
        rw [h] at hx
        exact absurd hx (by simp)
    | ok x =>
      cases hr : unpackVecLoop u rest with
      | error err =>
        simp only [reduceCtorEq, false_iff]
        intro hf
        cases hf with
        | cons hx hrest =>
          have hrest' := (ih _).mpr hrest
          rw [hr] at hrest'
          exact absurd hrest' (by simp)
      | ok xs =>
        simp only [Except.ok.injEq]
        constructor
        · rintro rfl
          exact List.Forall₂.cons h ((ih xs).mp hr)
        · intro hf
          cases hf with
          | cons hx hrest =>
            have hxs := (ih _).mpr hrest
            rw [hr] at hxs
            injection hxs with hxs
            rw [h] at hx
            injection hx with hx
            rw [hx, hxs]

theorem unpackVecLoop_error_iff {α : Type _} (u : TokenValue → UnpackerResult α)
    (elems : List TokenValue) :
    unpackVecLoop u elems = .error .invalidAbi ↔
      ∃ e ∈ elems, u e = .error .invalidAbi := by
  induction elems with
  | nil => simp [unpackVecLoop]
  | cons t rest ih =>
    simp only [unpackVecLoop]
    cases h : u t with
    | error err =>
      cases err
      exact iff_of_true rfl ⟨t, List.mem_cons_self t rest, h⟩
    | ok x =>
      cases hr : unpackVecLoop u rest with
      | error err =>
        cases err
        refine iff_of_true rfl ?_
        obtain ⟨e', he', hf⟩ := ih.mp hr
        exact ⟨e', List.mem_cons_of_mem _ he', hf⟩
      | ok xs =>
        simp only [reduceCtorEq, false_iff]
        rintro ⟨e', he', hf⟩
        rcases List.mem_cons.mp he' with rfl | he''
        · rw [h] at hf
          exact absurd hf (by simp)
        · have := ih.mpr ⟨e', he'', hf⟩
          rw [hr] at this
          exact absurd this (by simp)

/-- Claim C4: an `Array` or `FixedArray` value decodes to a native ordered
sequence by decoding each element in input order with the element rule; the
decode succeeds with exactly the elementwise-decoded list (same order, same
length) iff every element decodes, and fails with `InvalidAbi` iff some
element fails; no other value shape is accepted.  The spec's `[1,2,3]`
examples are included. -/
theorem array_elementwise_decoding :
    (∀ (α : Type) (u : TokenValue → UnpackerResult α) (ty : Nat)
        (elems : List TokenValue) (l : List α),
        (unpackVec u (.array ty elems) = .ok l ↔
          List.Forall₂ (fun e a => u e = .ok a) elems l) ∧
        (unpackVec u (.fixedArray ty elems) = .ok l ↔
          List.Forall₂ (fun e a => u e = .ok a) elems l) ∧
        (unpackVec u (.array ty elems) = .error .invalidAbi ↔
          ∃ e ∈ elems, u e = .error .invalidAbi) ∧
        (unpackVec u (.fixedArray ty elems) = .error .invalidAbi ↔
          ∃ e ∈ elems, u e = .error .invalidAbi)) ∧
    (∀ (α : Type) (u : TokenValue → UnpackerResult α) (b : Bool),
        unpackVec u (.bool b) = .error .invalidAbi) ∧
    unpackVec (unpackUintFixed 32) (.array 0 [.uint 32 1, .uint 32 2, .uint 32 3]) =
      .ok [1, 2, 3] ∧
    unpackVec (unpackUintFixed 32) (.array 0 [.uint 32 1, .uint 32 2, .bool true]) =
      .error .invalidAbi := by
  refine ⟨?_, fun α u b => rfl, ?_, ?_⟩
  · intro α u ty elems l
    exact ⟨unpackVecLoop_ok_iff u elems l, unpackVecLoop_ok_iff u elems l,
      unpackVecLoop_error_iff u elems, unpackVecLoop_error_iff u elems⟩
  · norm_num [unpackVec, unpackVecLoop, unpackUintFixed, unpackBigUint, toUnsigned]
  · norm_num [unpackVec, unpackVecLoop, unpackUintFixed, unpackBigUint, toUnsigned]

/-- Claim C6: the maybe-referenced wrapper target succeeds exactly on an
absent `Optional` (empty wrapper) or a present `Optional` holding a `Ref`
whose inner value decodes by the element rule (wrapper holding that result);
every other case — present `Optional` with a non-`Ref` inner, any
non-`Optional` value, or a failing inner decode — is `InvalidAbi`. -/
theorem maybe_ref_decoding :
    ∀ (α : Type) (u : TokenValue → UnpackerResult α) (v : TokenValue),
      (∀ r, unpackMaybeRef u v = .ok r ↔
        ((∃ ty, v = .optional ty none ∧ r = ⟨none⟩) ∨
         (∃ ty inner a, v = .optional ty (some (.ref inner)) ∧ u inner = .ok a ∧
           r = ⟨some a⟩))) ∧
      (unpackMaybeRef u v = .error .invalidAbi ↔
        ¬((∃ ty, v = .optional ty none) ∨
          (∃ ty inner a, v = .optional ty (some (.ref inner)) ∧ u inner = .ok a))) := by
  intro α u v
  have P1 : ∀ r, unpackMaybeRef u v = .ok r ↔
      ((∃ ty, v = .optional ty none ∧ r = ⟨none⟩) ∨
       (∃ ty inner a, v = .optional ty (some (.ref inner)) ∧ u inner = .ok a ∧
         r = ⟨some a⟩)) := by
    intro r
    cases v with
    | optional ty inner =>
      cases inner with
      | none =>
        simp only [unpackMaybeRef, Except.ok.injEq]
        constructor
        · rintro rfl
          exact Or.inl ⟨ty, rfl, rfl⟩
        · rintro (⟨ty', hv, rfl⟩ | ⟨ty', inner, a, hv, _, _⟩)
          · rfl
          · injection hv with h1 h2
            exact Option.noConfusion h2
      | some item =>
        cases item with
        | ref inner =>
          cases h : u inner with
          | ok a =>
            simp only [unpackMaybeRef, h, Except.ok.injEq]
            constructor
            · rintro rfl
              exact Or.inr ⟨ty, inner, a, rfl, h, rfl⟩
            · rintro (⟨ty', hv, rfl⟩ | ⟨ty', inner', a', hv, ha', rfl⟩)
              · injection hv with h1 h2
                exact Option.noConfusion h2
              · injection hv with h1 h2
                injection h2 with h2
                injection h2 with h2
                subst h2
                rw [h] at ha'
                injection ha' with ha'
                rw [ha']
          | error err =>
            simp only [unpackMaybeRef, h, reduceCtorEq, false_iff]
            rintro (⟨ty', hv, rfl⟩ | ⟨ty', inner', a', hv, ha', rfl⟩)
            · injection hv with h1 h2
              exact Option.noConfusion h2
            · injection hv with h1 h2
              injection h2 with h2
              injection h2 with h2
              subst h2
              rw [h] at ha'
              exact Except.noConfusion ha'
        | _ =>
          all_goals simp [unpackMaybeRef]
    | _ =>
      all_goals simp [unpackMaybeRef]
  refine ⟨P1, ?_⟩
  rcases hres : unpackMaybeRef u v with err | r
  · cases err
    simp only [true_iff]
    rintro (⟨ty, rfl⟩ | ⟨ty, inner, a, rfl, ha⟩)
    · have := (P1 ⟨none⟩).mpr (Or.inl ⟨ty, rfl, rfl⟩)
      rw [hres] at this
      exact Except.noConfusion this
    · have := (P1 ⟨some a⟩).mpr (Or.inr ⟨ty, inner, a, rfl, ha, rfl⟩)
      rw [hres] at this
      exact Except.noConfusion this
  · simp only [reduceCtorEq, false_iff, not_not]
    rcases (P1 r).mp hres with ⟨ty, hv, _⟩ | ⟨ty, inner, a, hv, ha, _⟩
    · exact Or.inl ⟨ty, hv⟩
    · exact Or.inr ⟨ty, inner, a, hv, ha⟩

theorem copyLoop_length (data : List Nat) (offset : Nat) :
    ∀ (idxs : List Nat) (r : List Nat),
      (idxs.foldl (fun result i => result.set (i + offset) (data.getD i 0)) r).length =
        r.length := by
  intro idxs
  induction idxs with
  | nil => intro r; rfl
  | cons i rest ih =>
    intro r
    rw [List.foldl_cons, ih, List.length_set]

theorem copyLoop_getElem? (data : List Nat) (offset : Nat) :
    ∀ (len : Nat) (r : List Nat) (j : Nat),
      ((List.range len).foldl (fun result i => result.set (i + offset) (data.getD i 0)) r)[j]? =
        if offset ≤ j ∧ j < offset + len ∧ j < r.length then some (data.getD (j - offset) 0)
        else r[j]? := by
  intro len
  induction len with
  | zero =>
    intro r j
    rw [List.range_zero, List.foldl_nil, if_neg (by omega)]
  | succ n ih =>
    intro r j
    rw [List.range_succ, List.foldl_append, List.foldl_cons, List.foldl_nil,
      List.getElem?_set, copyLoop_length data offset (List.range n) r, ih r j]
    by_cases hj : n + offset = j
    · rw [if_pos hj]
      by_cases hr : j < r.length
      · rw [if_pos (by omega), if_pos (by omega)]
        have hjo : j - offset = n := by omega
        rw [hjo]
      · rw [if_neg (by omega), if_neg (by omega)]
        exact (List.getElem?_eq_none (by omega)).symm
    · rw [if_neg hj]
      by_cases hc : offset ≤ j ∧ j < offset + n ∧ j < r.length
      · rw [if_pos hc, if_pos (by omega)]
      · rw [if_neg hc, if_neg (by omega)]

theorem copyRightAligned_eq_of_le (data : List Nat) (h : data.length ≤ 32) :
    copyRightAligned data = List.replicate (32 - data.length) 0 ++ data := by
  have hmin : min data.length 32 = data.length := Nat.min_eq_left h
  apply List.ext_getElem?
  intro j
  simp only [copyRightAligned, hmin]
  rw [copyLoop_getElem? data (32 - data.length) data.length (List.replicate 32 0) j,
    List.length_replicate, List.getElem?_append, List.length_replicate]
  by_cases h1 : j < 32 - data.length
  · rw [if_neg (by omega), if_pos h1, List.getElem?_replicate, List.getElem?_replicate,
      if_pos (by omega), if_pos (by omega)]
  · by_cases h2 : j < 32
    · have hi : j - (32 - data.length) < data.length := by omega
      rw [if_pos (by omega), if_neg h1, List.getD_eq_getElem?_getD,
        List.getElem?_eq_getElem hi]
      simp
    · rw [if_neg (by omega), if_neg h1, List.getElem?_replicate, if_neg (by omega)]
      exact (List.getElem?_eq_none (by omega)).symm

theorem natToBytesBE_length_le {n : Nat} (h : n < 2 ^ 256) :
    (natToBytesBE n).length ≤ 32 := by
  unfold natToBytesBE
  split
  · simp
  · rename_i hn
    rw [List.length_reverse]
    by_contra hlen
    push_neg at hlen
    have h1 : (256 : Nat) ^ (Nat.digits 256 n).length ≤ 256 * n :=
      Nat.base_pow_length_digits_le 256 n (by norm_num) hn
    have h2 : (256 : Nat) ^ 33 ≤ 256 ^ (Nat.digits 256 n).length :=
      Nat.pow_le_pow_right (by norm_num) hlen
    have h3 : n < 256 ^ 32 := by
      have hpow : (256 : Nat) ^ 32 = 2 ^ 256 := by
        have e1 : (256 : Nat) ^ 32 = (2 ^ 8) ^ 32 := rfl
        rw [e1, ← pow_mul]
      rw [hpow]
      exact h
    have h4 : 256 * n < 256 ^ 33 := by
      calc 256 * n < 256 * 256 ^ 32 := by
            exact mul_lt_mul_of_pos_left h3 (by norm_num)
        _ = 256 ^ 33 := by ring
    omega

theorem unpackUInt256_uint_ne (size n : Nat) (hs : size ≠ 256) :
    unpackUInt256 (.uint size n) = .error .invalidAbi := by
  unfold unpackUInt256
  split
  · rename_i heq
    injection heq with h1 h2
    exact absurd h1 hs
  · rfl

/-- Claim C2: the 32-byte big-endian array target (`UInt256`) succeeds iff the
value is an `UnsignedInteger` tagged with bit-width exactly 256; on success
(for any payload representable in 32 bytes) the payload's big-endian byte
representation is copied right-aligned into a 32-byte buffer, left-padded
with zero bytes when shorter than 32 bytes; payload 1 yields 31 zero bytes
followed by 0x01; any other bit-width tag or variant yields `InvalidAbi`. -/
theorem uint256_big_endian_bytes :
    (∀ v : TokenValue, (∃ r, unpackUInt256 v = .ok r) ↔ ∃ n, v = .uint 256 n) ∧
    (∀ n : Nat, n < 2 ^ 256 →
        unpackUInt256 (.uint 256 n) =
          .ok (List.replicate (32 - (natToBytesBE n).length) 0 ++ natToBytesBE n)) ∧
    (∀ size n : Nat, size ≠ 256 → unpackUInt256 (.uint size n) = .error .invalidAbi) ∧
    unpackUInt256 (.uint 256 1) = .ok (List.replicate 31 0 ++ [1]) := by
  have hd1 : natToBytesBE 1 = [1] := by
    unfold natToBytesBE
    rw [if_neg (by norm_num),
      Nat.digits_def' (by norm_num : (1 : Nat) < 256) (by norm_num : 0 < 1)]
    norm_num
  refine ⟨?_, ?_, unpackUInt256_uint_ne, ?_⟩
  · intro v
    cases v
    case uint size n =>
      by_cases hs : size = 256
      · subst hs
        exact iff_of_true ⟨_, rfl⟩ ⟨n, rfl⟩
      · refine iff_of_false ?_ ?_
        · rintro ⟨r, hr⟩
          rw [unpackUInt256_uint_ne size n hs] at hr
          exact Except.noConfusion hr
        · rintro ⟨m, hm⟩
          injection hm with h1 h2
          exact hs h1
    all_goals
      exact iff_of_false (fun hc => by rcases hc with ⟨r, hr⟩; exact Except.noConfusion hr)
        (fun hc => by rcases hc with ⟨m, hm⟩; exact TokenValue.noConfusion hm)
  · intro n hn
    show Except.ok (copyRightAligned (natToBytesBE n)) = _
    rw [copyRightAligned_eq_of_le _ (natToBytesBE_length_le hn)]
  · show Except.ok (copyRightAligned (natToBytesBE 1)) = _
    rw [hd1, copyRightAligned_eq_of_le [1] (by norm_num)]
    norm_num

/-- Concrete instantiation of `uint256_big_endian_bytes` discharging its
hypotheses: payload 1 under the 256-bit tag, and a non-256 tag. -/
theorem uint256_big_endian_bytes_witness :
    ((1 : Nat) < 2 ^ 256 ∧
      unpackUInt256 (.uint 256 1) =
        .ok (List.replicate (32 - (natToBytesBE 1).length) 0 ++ natToBytesBE 1)) ∧
    ((8 : Nat) ≠ 256 ∧ unpackUInt256 (.uint 8 5) = .error .invalidAbi) :=
  ⟨⟨by norm_num, uint256_big_endian_bytes.2.1 1 (by norm_num)⟩,
   ⟨by norm_num, uint256_big_endian_bytes.2.2.1 8 5 (by norm_num)⟩⟩

theorem orOpt_none {ν : Type _} (a : Option ν) : orOpt a none = a := by
  cases a <;> rfl

theorem orOpt_assoc {ν : Type _} (a b c : Option ν) :
    orOpt (orOpt a b) c = orOpt a (orOpt b c) := by
  cases a <;> rfl

theorem alookup_append {κ ν : Type _} [DecidableEq κ] (k : κ) (l₁ l₂ : List (κ × ν)) :
    alookup k (l₁ ++ l₂) = orOpt (alookup k l₁) (alookup k l₂) := by
  induction l₁ with
  | nil => rfl
  | cons p rest ih =>
    obtain ⟨k₀, v₀⟩ := p
    by_cases h : k = k₀ <;> simp [alookup, h, ih, orOpt]

theorem hashInsert_alookup {κ ν : Type _} [DecidableEq κ] (k : κ) (v : ν) (k' : κ) :
    ∀ m : List (κ × ν),
      alookup k' (hashInsert k v m) = if k' = k then some v else alookup k' m := by
  intro m
  induction m with
  | nil => rfl
  | cons head rest ih =>
    obtain ⟨k₀, v₀⟩ := head
    by_cases h : k = k₀
    · subst h
      simp only [hashInsert, if_pos rfl]
      by_cases h' : k' = k <;> simp [alookup, h']
    · simp only [hashInsert, if_neg h]
      by_cases h' : k' = k₀
      · subst h'
        have h2 : ¬k' = k := fun he => h he.symm
        simp [alookup, h2]
      · simp [alookup, h', ih]

theorem btreeInsert_alookup {κ ν : Type _} [DecidableEq κ] (lt : κ → κ → Bool)
    (k : κ) (v : ν) (k' : κ) :
    ∀ m : List (κ × ν),
      alookup k' (btreeInsert lt k v m) = if k' = k then some v else alookup k' m := by
  intro m
  induction m with
  | nil => rfl
  | cons head rest ih =>
    obtain ⟨k₀, v₀⟩ := head
    by_cases hlt : lt k k₀
    · simp only [btreeInsert, if_pos hlt]
      by_cases h' : k' = k <;> simp [alookup, h']
    · by_cases heq : k = k₀
      · subst heq
        simp only [btreeInsert, if_neg hlt, if_pos rfl]
        by_cases h' : k' = k <;> simp [alookup, h']
      · simp only [btreeInsert, if_neg hlt, if_neg heq]
        by_cases h' : k' = k₀
        · subst h'
          have h2 : ¬k' = k := fun he => heq he.symm
          simp [alookup, h2]
        · simp [alookup, h', ih]

theorem decodePairsLoop_cons_ok {κ ν : Type _} (uk : TokenValue → UnpackerResult κ)
    (uv : TokenValue → UnpackerResult ν) (key value : TokenValue)
    (rest : List (TokenValue × TokenValue)) (ps : List (κ × ν)) :
    decodePairsLoop uk uv ((key, value) :: rest) = .ok ps ↔
      ∃ k v ps', uk key = .ok k ∧ uv value = .ok v ∧
        decodePairsLoop uk uv rest = .ok ps' ∧ ps = (k, v) :: ps' := by
  simp only [decodePairsLoop]
  cases hk : uk key with
  | error e => simp
  | ok k₀ =>
    cases hv : uv value with
    | error e => simp
    | ok v₀ =>
      cases hrest : decodePairsLoop uk uv rest with
      | error e => simp
      | ok ps' => simp [eq_comm]

theorem unpackMapLoop_spec {κ ν : Type _} [DecidableEq κ]
    (ins : κ → ν → List (κ × ν) → List (κ × ν))
    (hins : ∀ (k : κ) (v : ν) (m : List (κ × ν)) (k' : κ),
      alookup k' (ins k v m) = if k' = k then some v else alookup k' m)
    (uk : TokenValue → UnpackerResult κ) (uv : TokenValue → UnpackerResult ν) :
    ∀ (pairs : List (TokenValue × TokenValue)) (ps : List (κ × ν)) (m : List (κ × ν)),
      decodePairsLoop uk uv pairs = .ok ps →
      ∃ res, unpackMapLoop ins uk uv pairs m = .ok res ∧
        ∀ k, alookup k res = orOpt (alookup k ps.reverse) (alookup k m) := by
  intro pairs
  induction pairs with
  | nil =>
    intro ps m hps
    injection hps with hps
    subst hps
    exact ⟨m, rfl, fun k => rfl⟩
  | cons p rest ih =>
    obtain ⟨key, value⟩ := p
    intro ps m hps
    rw [decodePairsLoop_cons_ok] at hps
    obtain ⟨k₀, v₀, ps', hk, hv, hrest, rfl⟩ := hps
    obtain ⟨res, hres, hspec⟩ := ih ps' (ins k₀ v₀ m) hrest
    refine ⟨res, ?_, ?_⟩
    · simp only [unpackMapLoop, hk, hv]
      exact hres
    · intro k
      rw [hspec k, hins, List.reverse_cons, alookup_append, orOpt_assoc]
      congr 1
      by_cases hx : k = k₀ <;> simp [alookup, orOpt, hx]

/-- Claim C5: for a `Mapping` value whose keys and values all decode (to `ps`,
in input pair order), the order-preserving (`BTreeMap`, with any comparison)
and hash-based (`HashMap`) targets both succeed and have identical key/value
content: looking up any key in either result gives the value of the last
input pair whose key decoded to it (last-write-wins). -/
theorem map_targets_equal_content {κ ν : Type _} [DecidableEq κ] (lt : κ → κ → Bool)
    (uk : TokenValue → UnpackerResult κ) (uv : TokenValue → UnpackerResult ν)
    (keyTy valTy : Nat) (pairs : List (TokenValue × TokenValue)) (ps : List (κ × ν))
    (h : decodePairsLoop uk uv pairs = .ok ps) :
    ∃ mb mh, unpackBTreeMap lt uk uv (.map keyTy valTy pairs) = .ok mb ∧
      unpackHashMap uk uv (.map keyTy valTy pairs) = .ok mh ∧
      ∀ k, alookup k mb = alookup k mh ∧ alookup k mb = alookup k ps.reverse := by
  obtain ⟨mb, hmb, hb⟩ := unpackMapLoop_spec (btreeInsert lt)
    (fun k v m k' => btreeInsert_alookup lt k v k' m) uk uv pairs ps [] h
  obtain ⟨mh, hmh, hh⟩ := unpackMapLoop_spec hashInsert
    (fun k v m k' => hashInsert_alookup k v k' m) uk uv pairs ps [] h
  refine ⟨mb, mh, hmb, hmh, fun k => ?_⟩
  have hb' := hb k
  have hh' := hh k
  rw [show alookup k ([] : List (κ × ν)) = none from rfl, orOpt_none] at hb' hh'
  exact ⟨hb'.trans hh'.symm, hb'⟩

/-- Concrete instantiation of `map_targets_equal_content` discharging its
hypothesis: the spec's mapping `{1:"a", 2:"b"}` with `BigInt` keys and
`String` values. -/
theorem map_targets_equal_content_witness :
    decodePairsLoop unpackBigInt unpackString
        [(TokenValue.int 64 1, TokenValue.string "a"),
         (TokenValue.int 64 2, TokenValue.string "b")] =
      .ok [(1, "a"), (2, "b")] ∧
    ∃ mb mh,
      unpackBTreeMap (fun a b : Int => decide (a < b)) unpackBigInt unpackString
          (.map 0 0 [(.int 64 1, .string "a"), (.int 64 2, .string "b")]) = .ok mb ∧
      unpackHashMap unpackBigInt unpackString
          (.map 0 0 [(.int 64 1, .string "a"), (.int 64 2, .string "b")]) = .ok mh ∧
      ∀ k, alookup k mb = alookup k mh ∧
        alookup k mb = alookup k ([(1, "a"), (2, "b")] : List (Int × String)).reverse :=
  ⟨rfl, map_targets_equal_content (fun a b : Int => decide (a < b)) unpackBigInt
    unpackString 0 0 [(.int 64 1, .string "a"), (.int 64 2, .string "b")]
    [(1, "a"), (2, "b")] rfl⟩

end Nekoton
